import Mathlib

/-!
# Verification of the zoomable sunburst hierarchy renderer

Shallow embedding of the sunburst component (`SunburstTree`): the
`d3.hierarchy(...).sum(...).sort(...)` weight-resolution pipeline, the
`d3.partition().size([2π, height+1])` layout, the `clicked` zoom handler's
`target` recomputation, and the `arcVisible` predicate, together with a small
state machine for the zoom/transition behaviour.

Conventions of the embedding:
* numbers are rationals (`ℚ`), abstracting over IEEE floats;
* angles are measured in units of π radians, so the full circle `2π` is the
  rational number `2`, and the partition size `[2 * Math.PI, height + 1]`
  becomes `[2, height + 1]`;
* `d.value ?? 0` composed with d3's `+value(d) || 0` is `Option.getD · 0`
  (a declared rational value, negative included, passes through unchanged);
* JavaScript's stable `Array.prototype.sort` is modelled by Mathlib's stable
  `List.insertionSort`.
-/

/-- The input tree document (`TreeNode`): a `name`, an optional declared
`value`, and an ordered list of children (empty for leaves). -/
inductive Inp where
  | node (name : String) (value : Option ℚ) (children : List Inp)

/-- A node after d3's `hierarchy(...).sum(...)`: the resolved weight is stored
in `value`. -/
inductive WTree where
  | node (name : String) (value : ℚ) (children : List WTree)

/-- The geometry record attached to a layout node by `d3.partition`:
angular span `x0..x1` (π-units), depth, radial band `y0..y1`. -/
structure LNode where
  name : String
  value : ℚ
  depth : ℕ
  x0 : ℚ
  x1 : ℚ
  y0 : ℚ
  y1 : ℚ
deriving DecidableEq

/-- The laid-out hierarchy: each node carries its `LNode` record. -/
inductive LTree where
  | node (info : LNode) (children : List LTree)

def Inp.name : Inp → String
  | .node nm _ _ => nm

def Inp.value : Inp → Option ℚ
  | .node _ v _ => v

def Inp.children : Inp → List Inp
  | .node _ _ cs => cs

def WTree.name : WTree → String
  | .node nm _ _ => nm

def WTree.value : WTree → ℚ
  | .node _ v _ => v

def WTree.children : WTree → List WTree
  | .node _ _ cs => cs

def LTree.info : LTree → LNode
  | .node i _ => i

def LTree.children : LTree → List LTree
  | .node _ cs => cs

/-- All subtrees of an input tree, in preorder. -/
def subtreesI : Inp → List Inp
  | .node nm v cs => .node nm v cs :: subtreesIF cs
where
  /-- All subtrees of the trees of a forest, in preorder. -/
  subtreesIF : List Inp → List Inp
  | [] => []
  | c :: cs => subtreesI c ++ subtreesIF cs

/-- All subtrees of a weighted tree, in preorder. -/
def subtreesW : WTree → List WTree
  | .node nm v cs => .node nm v cs :: subtreesWF cs
where
  /-- All subtrees of the trees of a weighted forest, in preorder. -/
  subtreesWF : List WTree → List WTree
  | [] => []
  | c :: cs => subtreesW c ++ subtreesWF cs

/-- All subtrees of a laid-out tree, in preorder. -/
def subtreesL : LTree → List LTree
  | .node i cs => .node i cs :: subtreesLF cs
where
  /-- All subtrees of the trees of a laid-out forest, in preorder. -/
  subtreesLF : List LTree → List LTree
  | [] => []
  | c :: cs => subtreesL c ++ subtreesLF cs

/-- `d3.hierarchy(data).sum(d => d.value ?? 0)`: the resolved weight of a node
is its own declared value (or 0 when absent) plus the sum of its children's
resolved weights. -/
def sumTree : Inp → WTree
  | .node nm v cs =>
    let kids := sumForest cs
    .node nm (v.getD 0 + (kids.map WTree.value).sum) kids
where
  /-- `sumTree` mapped over a forest. -/
  sumForest : List Inp → List WTree
  | [] => []
  | c :: cs => sumTree c :: sumForest cs

/-- The comparator `(a, b) => (b.value ?? 0) - (a.value ?? 0)`: `a` precedes
`b` when `a`'s resolved weight is at least `b`'s (descending order). -/
def rdesc (a b : WTree) : Prop := b.value ≤ a.value

instance : DecidableRel rdesc := fun x y => inferInstanceAs (Decidable (y.value ≤ x.value))

instance : IsTotal WTree rdesc := ⟨fun a b => le_total b.value a.value⟩

instance : IsTrans WTree rdesc := ⟨fun _ _ _ h1 h2 => le_trans h2 h1⟩

/-- `.sort((a, b) => (b.value ?? 0) - (a.value ?? 0))`: stably sort every
node's children by descending resolved weight. -/
def sortTree : WTree → WTree
  | .node nm v cs => .node nm v (List.insertionSort rdesc (sortForest cs))
where
  /-- `sortTree` mapped over a forest. -/
  sortForest : List WTree → List WTree
  | [] => []
  | c :: cs => sortTree c :: sortForest cs

/-- `d3.partition().size([2π, height+1])` applied to a weighted tree rooted in
the angular span `x0..x1` at depth `d` (angles in π-units).  Children are
placed by `treemapDice` left-to-right, each with width
`child.value * k` where `k = span / parent.value` (0 for a weight-0 parent);
a node whose span came out inverted is collapsed to its midpoint
(`if (x1 < x0) x0 = x1 = (x0 + x1) / 2` in d3's `positionNode`). -/
def partAux : WTree → ℚ → ℚ → ℕ → LTree
  | .node nm v cs, x0, x1, d =>
    let k := if v = 0 then 0 else (x1 - x0) / v
    let kids := diceAux cs x0 k (d + 1)
    if x1 < x0 then
      .node ⟨nm, v, d, (x0 + x1) / 2, (x0 + x1) / 2, (d : ℚ), (d : ℚ) + 1⟩ kids
    else
      .node ⟨nm, v, d, x0, x1, (d : ℚ), (d : ℚ) + 1⟩ kids
where
  /-- `treemapDice`: lay out each tree of the forest starting at angle `s`,
  giving each a width of `value * k`. -/
  diceAux : List WTree → ℚ → ℚ → ℕ → List LTree
  | [], _, _, _ => []
  | c :: cs, s, k, d =>
    partAux c s (s + c.value * k) d :: diceAux cs (s + c.value * k) k d

/-- The whole construction pipeline: resolve weights, sort children, then
partition the full circle (`[0, 2π]`, i.e. `[0, 2]` in π-units) from depth 0. -/
def build (t : Inp) : LTree := partAux (sortTree (sumTree t)) 0 2 0

/-- The geometry snapshot interpolated by the transition (the shape of the
`current` / `target` objects built in `clicked`). -/
structure Geom where
  x0 : ℚ
  x1 : ℚ
  y0 : ℚ
  y1 : ℚ
deriving DecidableEq

/-- The geometry of a layout node as a snapshot. -/
def layoutGeom (n : LNode) : Geom := ⟨n.x0, n.x1, n.y0, n.y1⟩

/-- Clamp to `[0, 1]`: `Math.max(0, Math.min(1, ·))`. -/
def clampQ (x : ℚ) : ℚ := max 0 (min 1 x)

/-- The `target` formula of `clicked`, on raw geometry: rescale an angular
endpoint into the focus span `px0..px1`, clamp to `[0, 1]`, scale by the full
circle (`2` in π-units); shift a radial endpoint down by the focus depth,
clamped at 0. -/
def retargetG (px0 px1 : ℚ) (pd : ℕ) (g : Geom) : Geom :=
  { x0 := clampQ ((g.x0 - px0) / (px1 - px0)) * 2
    x1 := clampQ ((g.x1 - px0) / (px1 - px0)) * 2
    y0 := max 0 (g.y0 - (pd : ℚ))
    y1 := max 0 (g.y1 - (pd : ℚ)) }

/-- `clicked`'s per-node `target` computation: the formula is applied to the
node's original partition coordinates `d.x0, d.x1, d.y0, d.y1` (never to the
in-flight `current` values), relative to the clicked node `p`'s original
coordinates and depth. -/
def retarget (p n : LNode) : Geom := retargetG p.x0 p.x1 p.depth (layoutGeom n)

/-- `arcVisible`: `d.y1 <= 3 && d.y0 >= 1 && d.x1 > d.x0`. -/
def arcVisible (g : Geom) : Bool := g.y1 ≤ 3 && 1 ≤ g.y0 && g.x0 < g.x1

/-- Per-field linear interpolation, the semantics of
`d3.interpolate(d.current, d.target)` on these records. -/
def lerpG (a b : Geom) (t : ℚ) : Geom :=
  { x0 := a.x0 + (b.x0 - a.x0) * t
    x1 := a.x1 + (b.x1 - a.x1) * t
    y0 := a.y0 + (b.y0 - a.y0) * t
    y1 := a.y1 + (b.y1 - a.y1) * t }

/-- Look a node up by its child-index path. -/
def pathGet (t : LTree) : List ℕ → Option LTree
  | [] => some t
  | i :: is =>
    match t.children.get? i with
    | some c => pathGet c is
    | none => none

/-- The layout records of every node, in preorder. -/
def nodesOf (t : LTree) : List LNode := (subtreesL t).map LTree.info

/-- Per-node animation state: the immutable layout record, the in-flight
`current` geometry, and the `target` geometry. -/
structure NodeSt where
  layout : LNode
  cur : Geom
  tgt : Geom
deriving DecidableEq

/-- Renderer zoom state: the path of the focused node (the node at the
center; `[]` is the root) plus every node's animation state.  The invisible
center disc's click target is the focus path's parent (`dropLast`), matching
`parent.datum(p.parent || root)`. -/
structure ZState where
  focus : List ℕ
  nodes : List NodeSt
deriving DecidableEq

/-- Initial state: focus at the root, `current = target =` the partition
layout (`root.each(d => d.current = d)`). -/
def initState (t : LTree) : ZState :=
  ⟨[], (nodesOf t).map fun n => ⟨n, layoutGeom n, layoutGeom n⟩⟩

/-- The effect of `clicked` given the clicked node's layout record `p` and its
path `q`: the focus moves to `q` and every node's `target` is recomputed from
its original layout coordinates relative to `p`; `current` is untouched (the
in-flight value stays and becomes the start of the next interpolation). -/
def clickNode (p : LNode) (q : List ℕ) (s : ZState) : ZState :=
  ⟨q, s.nodes.map fun n => ⟨n.layout, n.cur, retarget p n.layout⟩⟩

/-- `clicked` on the node at path `q` (no-op on an invalid path). -/
def clickPath (t : LTree) (s : ZState) (q : List ℕ) : ZState :=
  match pathGet t q with
  | some u => clickNode u.info q s
  | none => s

/-- Clicking the invisible center disc: its datum is the focus's parent
(`p.parent || root`), so this is `clicked` on the parent path. -/
def centerClick (t : LTree) (s : ZState) : ZState :=
  clickPath t s s.focus.dropLast

/-- Advance the in-flight transition to fraction `r`: every `current` moves
along `d3.interpolate(d.current, d.target)`; at `r = 1` the transition
completes with `current = target`. -/
def advance (r : ℚ) (s : ZState) : ZState :=
  ⟨s.focus, s.nodes.map fun n => ⟨n.layout, lerpG n.cur n.tgt r, n.tgt⟩⟩

/-- The two-level sample document
`{name:"root", children:[{name:"A", value:3}, {name:"B", value:1}]}`. -/
def T2 : Inp :=
  .node "root" none [.node "A" (some 3) [], .node "B" (some 1) []]

/-- A three-level chain `root → A → B → C` with `C` a leaf of value 1;
`B` is a focusable (non-leaf) node at depth 2. -/
def T3 : Inp :=
  .node "root" none [.node "A" none [.node "B" none [.node "C" (some 1) []]]]

/-! ## Structural lemmas -/

theorem Inp.strongIndI {P : Inp → Prop}
    (h : ∀ nm v cs, (∀ c ∈ cs, P c) → P (.node nm v cs)) : ∀ t, P t
  | .node nm v cs => h nm v cs (fun c hc => Inp.strongIndI h c)
termination_by t => sizeOf t
decreasing_by
  have := List.sizeOf_lt_of_mem hc
  simp only [Inp.node.sizeOf_spec]
  omega

theorem WTree.strongIndW {P : WTree → Prop}
    (h : ∀ nm v cs, (∀ c ∈ cs, P c) → P (.node nm v cs)) : ∀ t, P t
  | .node nm v cs => h nm v cs (fun c hc => WTree.strongIndW h c)
termination_by t => sizeOf t
decreasing_by
  have := List.sizeOf_lt_of_mem hc
  simp only [WTree.node.sizeOf_spec]
  omega

theorem LTree.strongIndL {P : LTree → Prop}
    (h : ∀ i cs, (∀ c ∈ cs, P c) → P (.node i cs)) : ∀ t, P t
  | .node i cs => h i cs (fun c hc => LTree.strongIndL h c)
termination_by t => sizeOf t
decreasing_by
  have := List.sizeOf_lt_of_mem hc
  simp only [LTree.node.sizeOf_spec]
  omega

theorem sumForest_eq_map (cs : List Inp) : sumTree.sumForest cs = cs.map sumTree := by
  induction cs with
  | nil => simp [sumTree.sumForest]
  | cons c cs ih => simp [sumTree.sumForest, ih]

theorem sortForest_eq_map (cs : List WTree) :
    sortTree.sortForest cs = cs.map sortTree := by
  induction cs with
  | nil => simp [sortTree.sortForest]
  | cons c cs ih => simp [sortTree.sortForest, ih]

theorem mem_subtreesIF {u : Inp} {cs : List Inp} :
    u ∈ subtreesI.subtreesIF cs ↔ ∃ c ∈ cs, u ∈ subtreesI c := by
  induction cs with
  | nil => simp [subtreesI.subtreesIF]
  | cons c cs ih => simp [subtreesI.subtreesIF, ih]

theorem mem_subtreesI {u : Inp} {nm : String} {v : Option ℚ} {cs : List Inp} :
    u ∈ subtreesI (.node nm v cs) ↔ u = .node nm v cs ∨ ∃ c ∈ cs, u ∈ subtreesI c := by
  rw [subtreesI]
  simp [mem_subtreesIF]

theorem mem_subtreesWF {u : WTree} {cs : List WTree} :
    u ∈ subtreesW.subtreesWF cs ↔ ∃ c ∈ cs, u ∈ subtreesW c := by
  induction cs with
  | nil => simp [subtreesW.subtreesWF]
  | cons c cs ih => simp [subtreesW.subtreesWF, ih]

theorem mem_subtreesW {u : WTree} {nm : String} {v : ℚ} {cs : List WTree} :
    u ∈ subtreesW (.node nm v cs) ↔ u = .node nm v cs ∨ ∃ c ∈ cs, u ∈ subtreesW c := by
  rw [subtreesW]
  simp [mem_subtreesWF]

theorem mem_subtreesLF {u : LTree} {cs : List LTree} :
    u ∈ subtreesL.subtreesLF cs ↔ ∃ c ∈ cs, u ∈ subtreesL c := by
  induction cs with
  | nil => simp [subtreesL.subtreesLF]
  | cons c cs ih => simp [subtreesL.subtreesLF, ih]

theorem mem_subtreesL {u : LTree} {i : LNode} {cs : List LTree} :
    u ∈ subtreesL (.node i cs) ↔ u = .node i cs ∨ ∃ c ∈ cs, u ∈ subtreesL c := by
  rw [subtreesL]
  simp [mem_subtreesLF]

theorem self_mem_subtreesI (t : Inp) : t ∈ subtreesI t := by
  cases t with
  | node nm v cs => exact mem_subtreesI.mpr (Or.inl rfl)

theorem self_mem_subtreesW (t : WTree) : t ∈ subtreesW t := by
  cases t with
  | node nm v cs => exact mem_subtreesW.mpr (Or.inl rfl)

theorem self_mem_subtreesL (t : LTree) : t ∈ subtreesL t := by
  cases t with
  | node i cs => exact mem_subtreesL.mpr (Or.inl rfl)

/-- `sortTree` preserves the resolved weight of the node it is applied to. -/
theorem sortTree_value (t : WTree) : (sortTree t).value = t.value := by
  cases t with
  | node nm v cs => simp [sortTree, WTree.value]

/-! ## Concrete layouts of the sample documents -/

/-- Layout record of the root of `T2` (weight 3 + 1 = 4, full circle). -/
def rootT2 : LNode := ⟨"root", 4, 0, 0, 2, 0, 1⟩

/-- Layout record of node `A` of `T2`: angular span `[0, 1.5π]` (`3/2` in
π-units), radial band `[1, 2]`. -/
def aT2 : LNode := ⟨"A", 3, 1, 0, 3 / 2, 1, 2⟩

/-- Layout record of node `B` of `T2`: angular span `[1.5π, 2π]`, radial band
`[1, 2]`. -/
def bT2 : LNode := ⟨"B", 1, 1, 3 / 2, 2, 1, 2⟩

theorem build_T2_eq :
    build T2 = .node rootT2 [.node aT2 [], .node bT2 []] := by
  simp [build, T2, sumTree, sumForest_eq_map, sortTree, sortForest_eq_map, WTree.value,
    List.insertionSort, List.orderedInsert, rdesc, partAux, partAux.diceAux,
    rootT2, aT2, bT2]
  norm_num

theorem build_T3_eq :
    build T3 = .node ⟨"root", 1, 0, 0, 2, 0, 1⟩
      [.node ⟨"A", 1, 1, 0, 2, 1, 2⟩
        [.node ⟨"B", 1, 2, 0, 2, 2, 3⟩
          [.node ⟨"C", 1, 3, 0, 2, 3, 4⟩ []]]] := by
  simp [build, T3, sumTree, sumForest_eq_map, sortTree, sortForest_eq_map, WTree.value,
    List.insertionSort, List.orderedInsert, rdesc, partAux, partAux.diceAux]
  norm_num

theorem nodesOf_build_T2 : nodesOf (build T2) = [rootT2, aT2, bT2] := by
  rw [build_T2_eq]
  simp [nodesOf, subtreesL, subtreesL.subtreesLF, LTree.info]

/-! ## Weight resolution -/

/-- A valid input document in the sense of the data model: a leaf may declare
a non-negative value (or none), an internal node declares no value. -/
def ValidInp : Inp → Prop
  | .node _ v cs => (cs = [] → 0 ≤ v.getD 0) ∧ (cs ≠ [] → v = none) ∧ ValidForest cs
where
  /-- Validity of every tree of a forest. -/
  ValidForest : List Inp → Prop
  | [] => True
  | c :: cs => ValidInp c ∧ ValidForest cs

theorem validForest_iff {cs : List Inp} :
    ValidInp.ValidForest cs ↔ ∀ c ∈ cs, ValidInp c := by
  induction cs with
  | nil => simp [ValidInp.ValidForest]
  | cons c cs ih => simp [ValidInp.ValidForest, ih]

theorem ValidInp.of_mem_subtrees {t u : Inp} (hv : ValidInp t)
    (hu : u ∈ subtreesI t) : ValidInp u := by
  induction t using Inp.strongIndI with
  | h nm v cs ih =>
    rcases mem_subtreesI.mp hu with h | ⟨c, hc, hcu⟩
    · exact h ▸ hv
    · exact ih c hc ((validForest_iff.mp ((ValidInp.eq_1 ..▸ hv).2.2) c hc)) hcu

theorem sumTree_value (nm : String) (v : Option ℚ) (cs : List Inp) :
    (sumTree (.node nm v cs)).value
      = v.getD 0 + ((cs.map fun c => (sumTree c).value).sum) := by
  simp [sumTree, sumForest_eq_map, WTree.value, List.map_map, Function.comp_def]

theorem sumTree_children (nm : String) (v : Option ℚ) (cs : List Inp) :
    (sumTree (.node nm v cs)).children = cs.map sumTree := by
  simp [sumTree, sumForest_eq_map, WTree.children]

/-- A document with a node declaring a negative value (`-5`) next to a
well-formed sibling. -/
def Tneg : Inp := .node "root" none [.node "x" (some (-5)) [], .node "y" (some 7) []]

/-- A document whose internal root declares its own value (5) on top of one
child of weight 3. -/
def Tmix : Inp := .node "r" (some 5) [.node "c" (some 3) []]

/-- C6: for every valid input tree (internal nodes carry no declared value),
the resolved weight of every internal node equals the exact sum of its
children's resolved weights, and a leaf's resolved weight is its declared
value (0 when absent). -/
theorem C6_weight_conservation (t : Inp) (hv : ValidInp t) :
    ∀ u ∈ subtreesI t,
      (u.children ≠ [] →
        (sumTree u).value = ((u.children.map fun c => (sumTree c).value).sum))
      ∧ (u.children = [] → (sumTree u).value = (u.value).getD 0) := by
  intro u hu
  have hvu : ValidInp u := hv.of_mem_subtrees hu
  cases u with
  | node nm v cs =>
    rw [ValidInp.eq_1] at hvu
    constructor
    · intro hcs
      simp only [Inp.children] at hcs
      rw [sumTree_value, Inp.children, hvu.2.1 hcs]
      simp
    · intro hcs
      simp only [Inp.children] at hcs
      subst hcs
      rw [sumTree_value, Inp.value]
      simp

/-- Witness for C6 on the sample document `T2`: the root's resolved weight is
`3 + 1 = 4`, the sum of its children's resolved weights. -/
theorem C6_weight_conservation_witness :
    ValidInp T2 ∧ T2 ∈ subtreesI T2 ∧ (sumTree T2).value = 4 ∧
      ((T2.children.map fun c => (sumTree c).value).sum) = 4 := by
  have hv : ValidInp T2 := by
    simp [T2, ValidInp, ValidInp.ValidForest]
  refine ⟨hv, self_mem_subtreesI T2, ?_, ?_⟩
  · have h4 : (sumTree T2).value = ((T2.children.map fun c => (sumTree c).value).sum) :=
      (C6_weight_conservation T2 hv T2 (self_mem_subtreesI T2)).1 (by simp [T2, Inp.children])
    rw [h4]
    simp [T2, Inp.children, sumTree, sumForest_eq_map, WTree.value]
    norm_num
  · simp [T2, Inp.children, sumTree, sumForest_eq_map, WTree.value]
    norm_num

/-- C9 counterexample: in `Tneg` the node `x` declares the value `-5`; its
resolved weight is `-5`, not `0`, and it enters the root's sum
(`-5 + 7 = 2`), refuting the claim that a negative declared value is
resolved as 0. -/
theorem C9_counterexample :
    (sumTree (.node "x" (some (-5)) [])).value = -5 ∧ ((-5 : ℚ) ≠ 0) ∧
      (sumTree Tneg).value = 2 := by
  refine ⟨?_, by norm_num, ?_⟩
  · rw [sumTree_value]
    simp
  · simp [Tneg, sumTree_value]
    norm_num

/-- C9 as amended: a declared value — negative included — passes through
weight resolution unchanged (`d.value ?? 0` only replaces an absent value),
and enters the ancestor sums; concretely `Tneg`'s root resolves to
`-5 + 7 = 2`. -/
theorem C9_amended_negative_passthrough :
    (∀ (nm : String) (v : ℚ), (sumTree (.node nm (some v) [])).value = v)
    ∧ (sumTree Tneg).value = 2 := by
  constructor
  · intro nm v
    rw [sumTree_value]
    simp
  · simp [Tneg, sumTree_value]
    norm_num

/-- C10: the resolved weight of every node is its own declared value
(0 when absent) plus the sum of its children's resolved weights — an internal
node's declared value is silently added, so on `Tmix` (root declares 5 over a
child of weight 3) the root resolves to `8`, not to the children's sum `3`. -/
theorem C10_declared_value_added :
    (∀ (t : Inp), ∀ u ∈ subtreesI t,
      (sumTree u).value
        = (u.value).getD 0 + ((u.children.map fun c => (sumTree c).value).sum))
    ∧ (sumTree Tmix).value = 8
    ∧ ((Tmix.children.map fun c => (sumTree c).value).sum) = 3
    ∧ ((8 : ℚ) ≠ 3) := by
  refine ⟨?_, ?_, ?_, by norm_num⟩
  · intro t u _
    cases u with
    | node nm v cs => rw [sumTree_value, Inp.value, Inp.children]
  · norm_num [Tmix, sumTree_value]
  · norm_num [Tmix, Inp.children, sumTree_value]

/-- Witness for C10 at `Tmix` itself. -/
theorem C10_declared_value_added_witness :
    (sumTree Tmix).value
      = (Tmix.value).getD 0 + ((Tmix.children.map fun c => (sumTree c).value).sum) :=
  C10_declared_value_added.1 Tmix Tmix (self_mem_subtreesI Tmix)

/-! ## Initial layout of the two-level sample (claims C3, C4) -/

/-- C3 counterexample: in the computed layout of `T2` both children sit at
radial band `[1, 2]` (`radialStart = depth = 1`), not `[0, 1]` as the claim
states; the radial part of the claim is false. -/
theorem C3_counterexample :
    (build T2).children.map (fun c => (c.info.y0, c.info.y1)) = [(1, 2), (1, 2)] ∧
      ¬ ((build T2).children.map (fun c => (c.info.y0, c.info.y1))
          = [(0, 1), (0, 1)]) := by
  rw [build_T2_eq]
  refine ⟨by simp [LTree.children, LTree.info, aT2, bT2], fun h => ?_⟩
  simp [LTree.children, LTree.info, aT2, bT2] at h

/-- C3 as amended: the initial layout of `T2` assigns A the angular span
`[0, 1.5π]` (`3/2` in π-units) and B the span `[1.5π, 2π]`, and both lie at
radial band `[1, 2]` (their depth band), not `[0, 1]`. -/
theorem C3_amended_initial_layout :
    (build T2).children.map LTree.info
      = [⟨"A", 3, 1, 0, 3 / 2, 1, 2⟩, ⟨"B", 1, 1, 3 / 2, 2, 1, 2⟩] := by
  rw [build_T2_eq]
  simp [LTree.children, LTree.info, aT2, bT2]

/-- C4 counterexample: after clicking arc A of `T2`, A's target radial band is
`[0, 1]` (`max(0, 1-1)` to `max(0, 2-1)`), not `[0, 0]` as the claim states. -/
theorem C4_counterexample :
    ((clickPath (build T2) (initState (build T2)) [0]).nodes.get? 1).map NodeSt.tgt
        = some ⟨0, 2, 0, 1⟩ ∧
      ¬ (((clickPath (build T2) (initState (build T2)) [0]).nodes.get? 1).map NodeSt.tgt
          = some ⟨0, 2, 0, 0⟩) := by
  have h : ((clickPath (build T2) (initState (build T2)) [0]).nodes.get? 1).map NodeSt.tgt
      = some (retarget aT2 aT2) := by
    simp [clickPath, build_T2_eq, pathGet, LTree.children, LTree.info, initState,
      nodesOf, subtreesL, subtreesL.subtreesLF, clickNode]
  rw [h]
  have hval : retarget aT2 aT2 = ⟨0, 2, 0, 1⟩ := by
    simp [retarget, retargetG, layoutGeom, clampQ, aT2]
    norm_num
  rw [hval]
  refine ⟨rfl, fun hc => ?_⟩
  have h01 : (⟨0, 2, 0, 1⟩ : Geom) = ⟨0, 2, 0, 0⟩ := Option.some.inj hc
  have := congrArg Geom.y1 h01
  norm_num at this

/-- C4 as amended: clicking arc A of `T2` makes A the focus (path `[0]`); A's
target angular span becomes the full circle `[0, 2π]` and its target radial
band becomes `[0, 1]`; A fails `arcVisible` (its `y0 = 0 < 1`), so it is no
longer drawn as an arc and becomes the new center. -/
theorem C4_amended_click_A :
    (clickPath (build T2) (initState (build T2)) [0]).focus = [0] ∧
      (pathGet (build T2) [0]).map LTree.info = some aT2 ∧
      ((clickPath (build T2) (initState (build T2)) [0]).nodes.get? 1).map NodeSt.tgt
        = some ⟨0, 2, 0, 1⟩ ∧
      arcVisible ⟨0, 2, 0, 1⟩ = false := by
  have h : ((clickPath (build T2) (initState (build T2)) [0]).nodes.get? 1).map NodeSt.tgt
      = some (retarget aT2 aT2) := by
    simp [clickPath, build_T2_eq, pathGet, LTree.children, LTree.info, initState,
      nodesOf, subtreesL, subtreesL.subtreesLF, clickNode]
  have hval : retarget aT2 aT2 = ⟨0, 2, 0, 1⟩ := by
    simp [retarget, retargetG, layoutGeom, clampQ, aT2]
    norm_num
  refine ⟨?_, ?_, by rw [h, hval], by simp [arcVisible]⟩
  · simp [clickPath, build_T2_eq, pathGet, LTree.children, clickNode]
  · simp [build_T2_eq, pathGet, LTree.children, LTree.info]

/-! ## The zoom target formula (claim C1) -/

theorem mem_diceAux {lt : LTree} :
    ∀ {cs : List WTree} {s k : ℚ} {d : ℕ}, lt ∈ partAux.diceAux cs s k d →
      ∃ c ∈ cs, ∃ s' : ℚ, lt = partAux c s' (s' + c.value * k) d := by
  intro cs
  induction cs with
  | nil => intro s k d h; simp [partAux.diceAux] at h
  | cons c cs ih =>
    intro s k d h
    rw [partAux.diceAux] at h
    rcases List.mem_cons.mp h with h | h
    · exact ⟨c, List.mem_cons_self .., s, h⟩
    · obtain ⟨c', hc', s', he⟩ := ih h
      exact ⟨c', List.mem_cons_of_mem _ hc', s', he⟩

/-- Every node recorded by the partition has a well-oriented angular span:
either the input span was kept (`x0 ≤ x1`) or it was collapsed to a point. -/
theorem partAux_span_le (w : WTree) :
    ∀ (x0 x1 : ℚ) (d : ℕ), ∀ u ∈ subtreesL (partAux w x0 x1 d),
      u.info.x0 ≤ u.info.x1 := by
  induction w using WTree.strongIndW with
  | h nm v cs ih =>
    intro x0 x1 d u hu
    rw [partAux] at hu
    by_cases hlt : x1 < x0
    · rw [if_pos hlt] at hu
      rcases mem_subtreesL.mp hu with h | ⟨c, hc, hcu⟩
      · rw [h]; simp [LTree.info]
      · obtain ⟨c', hc', s', he⟩ := mem_diceAux hc
        exact ih c' hc' _ _ _ u (he ▸ hcu)
    · rw [if_neg hlt] at hu
      rcases mem_subtreesL.mp hu with h | ⟨c, hc, hcu⟩
      · rw [h]; simpa [LTree.info] using le_of_not_lt hlt
      · obtain ⟨c', hc', s', he⟩ := mem_diceAux hc
        exact ih c' hc' _ _ _ u (he ▸ hcu)

theorem span_le_of_mem_nodesOf {t : Inp} {n : LNode} (hn : n ∈ nodesOf (build t)) :
    n.x0 ≤ n.x1 := by
  obtain ⟨u, hu, he⟩ := List.mem_map.mp hn
  have := partAux_span_le (sortTree (sumTree t)) 0 2 0 u hu
  rw [he] at this
  exact this

theorem clampQ_nonneg (x : ℚ) : 0 ≤ clampQ x := le_max_left 0 _

theorem clampQ_le_one (x : ℚ) : clampQ x ≤ 1 :=
  max_le (by norm_num) (min_le_left 1 x)

theorem clampQ_mono {x y : ℚ} (h : x ≤ y) : clampQ x ≤ clampQ y :=
  max_le_max le_rfl (min_le_min le_rfl h)

theorem clampQ_of_nonpos {x : ℚ} (h : x ≤ 0) : clampQ x = 0 := by
  unfold clampQ
  rcases le_total 1 x with h1 | h1
  · linarith
  · rw [min_eq_right h1]
    exact max_eq_left h

theorem clampQ_of_one_le {x : ℚ} (h : 1 ≤ x) : clampQ x = 1 := by
  unfold clampQ
  rw [min_eq_left h]
  exact max_eq_right (by norm_num)

/-- C1: for a click on a node P with a positive angular span, every node D's
target geometry is the clamped linear rescale of D's **original** angular
endpoints into P's span, scaled by the full circle (`2` in π-units, i.e. 2π),
and the shift of D's original radial endpoints down by P's depth clamped at 0;
consequently the target span is never negative, never exceeds the full
circle, and collapses to a zero-width span when D lies entirely outside P's
span. -/
theorem C1_retarget_formula (t : Inp) (p d : LNode)
    (hp : p ∈ nodesOf (build t)) (hd : d ∈ nodesOf (build t))
    (hspan : p.x0 < p.x1) :
    (retarget p d).x0 = clampQ ((d.x0 - p.x0) / (p.x1 - p.x0)) * 2 ∧
    (retarget p d).x1 = clampQ ((d.x1 - p.x0) / (p.x1 - p.x0)) * 2 ∧
    (retarget p d).y0 = max 0 (d.y0 - (p.depth : ℚ)) ∧
    (retarget p d).y1 = max 0 (d.y1 - (p.depth : ℚ)) ∧
    0 ≤ (retarget p d).x0 ∧
    (retarget p d).x0 ≤ (retarget p d).x1 ∧
    (retarget p d).x1 ≤ 2 ∧
    ((d.x1 ≤ p.x0 ∨ p.x1 ≤ d.x0) → (retarget p d).x0 = (retarget p d).x1) := by
  have hd01 : d.x0 ≤ d.x1 := span_le_of_mem_nodesOf hd
  have hw : (0 : ℚ) < p.x1 - p.x0 := by linarith
  refine ⟨rfl, rfl, rfl, rfl, ?_, ?_, ?_, ?_⟩
  · exact mul_nonneg (clampQ_nonneg _) (by norm_num)
  · show clampQ ((d.x0 - p.x0) / (p.x1 - p.x0)) * 2
        ≤ clampQ ((d.x1 - p.x0) / (p.x1 - p.x0)) * 2
    have hdiv : (d.x0 - p.x0) / (p.x1 - p.x0) ≤ (d.x1 - p.x0) / (p.x1 - p.x0) :=
      (div_le_div_right hw).mpr (by linarith)
    exact mul_le_mul_of_nonneg_right (clampQ_mono hdiv) (by norm_num)
  · calc clampQ ((d.x1 - p.x0) / (p.x1 - p.x0)) * 2 ≤ 1 * 2 :=
        mul_le_mul_of_nonneg_right (clampQ_le_one _) (by norm_num)
      _ = 2 := one_mul 2
  · rintro (h | h)
    · have h0 : (d.x0 - p.x0) / (p.x1 - p.x0) ≤ 0 :=
        div_nonpos_of_nonpos_of_nonneg (by linarith) (le_of_lt hw)
      have h1 : (d.x1 - p.x0) / (p.x1 - p.x0) ≤ 0 :=
        div_nonpos_of_nonpos_of_nonneg (by linarith) (le_of_lt hw)
      show clampQ ((d.x0 - p.x0) / (p.x1 - p.x0)) * 2
          = clampQ ((d.x1 - p.x0) / (p.x1 - p.x0)) * 2
      rw [clampQ_of_nonpos h0, clampQ_of_nonpos h1]
    · have h0 : 1 ≤ (d.x0 - p.x0) / (p.x1 - p.x0) :=
        (one_le_div hw).mpr (by linarith)
      have h1 : 1 ≤ (d.x1 - p.x0) / (p.x1 - p.x0) :=
        (one_le_div hw).mpr (by linarith)
      show clampQ ((d.x0 - p.x0) / (p.x1 - p.x0)) * 2
          = clampQ ((d.x1 - p.x0) / (p.x1 - p.x0)) * 2
      rw [clampQ_of_one_le h0, clampQ_of_one_le h1]

/-- Witness for C1: clicking A in the layout of `T2` and retargeting B. -/
theorem C1_retarget_formula_witness :
    (retarget aT2 bT2).x0 = clampQ ((bT2.x0 - aT2.x0) / (aT2.x1 - aT2.x0)) * 2 ∧
    (retarget aT2 bT2).x1 = clampQ ((bT2.x1 - aT2.x0) / (aT2.x1 - aT2.x0)) * 2 ∧
    (retarget aT2 bT2).y0 = max 0 (bT2.y0 - (aT2.depth : ℚ)) ∧
    (retarget aT2 bT2).y1 = max 0 (bT2.y1 - (aT2.depth : ℚ)) ∧
    0 ≤ (retarget aT2 bT2).x0 ∧
    (retarget aT2 bT2).x0 ≤ (retarget aT2 bT2).x1 ∧
    (retarget aT2 bT2).x1 ≤ 2 ∧
    ((bT2.x1 ≤ aT2.x0 ∨ aT2.x1 ≤ bT2.x0) →
      (retarget aT2 bT2).x0 = (retarget aT2 bT2).x1) :=
  C1_retarget_formula T2 aT2 bT2
    (by rw [nodesOf_build_T2]; simp)
    (by rw [nodesOf_build_T2]; simp)
    (by norm_num [aT2])

/-! ## Retargeting an in-flight transition (claim C8) -/

theorem retarget_aT2_rootT2 : retarget aT2 rootT2 = ⟨0, 2, 0, 0⟩ := by
  simp [retarget, retargetG, layoutGeom, clampQ, aT2, rootT2]
  norm_num

theorem retarget_aT2_bT2 : retarget aT2 bT2 = ⟨2, 2, 0, 1⟩ := by
  simp [retarget, retargetG, layoutGeom, clampQ, aT2, bT2]
  norm_num

theorem retarget_rootT2_bT2 : retarget rootT2 bT2 = ⟨3 / 2, 2, 1, 2⟩ := by
  simp [retarget, retargetG, layoutGeom, clampQ, rootT2, bT2]
  norm_num

/-- The state of the `T2` renderer halfway (t = 1/2) through the transition
started by clicking arc A. -/
def midStateT2 : ZState :=
  advance (1 / 2) (clickPath (build T2) (initState (build T2)) [0])

theorem midStateT2_eq :
    midStateT2 = ⟨[0],
      [⟨rootT2, ⟨0, 2, 0, 1 / 2⟩, ⟨0, 2, 0, 0⟩⟩,
       ⟨aT2, ⟨0, 7 / 4, 1 / 2, 3 / 2⟩, ⟨0, 2, 0, 1⟩⟩,
       ⟨bT2, ⟨7 / 4, 2, 1 / 2, 3 / 2⟩, ⟨2, 2, 0, 1⟩⟩]⟩ := by
  have h : ((clickPath (build T2) (initState (build T2)) [0])) =
      ⟨[0], [⟨rootT2, layoutGeom rootT2, retarget aT2 rootT2⟩,
             ⟨aT2, layoutGeom aT2, retarget aT2 aT2⟩,
             ⟨bT2, layoutGeom bT2, retarget aT2 bT2⟩]⟩ := by
    simp [clickPath, build_T2_eq, pathGet, LTree.children, LTree.info, initState,
      nodesOf, subtreesL, subtreesL.subtreesLF, clickNode]
  rw [midStateT2, h]
  have ha : retarget aT2 aT2 = ⟨0, 2, 0, 1⟩ := by
    simp [retarget, retargetG, layoutGeom, clampQ, aT2]
    norm_num
  rw [retarget_aT2_rootT2, retarget_aT2_bT2, ha]
  simp [advance, lerpG, layoutGeom, rootT2, aT2, bT2]
  norm_num

/-- C8 counterexample: with the `T2` transition to focus A halfway done,
clicking the center (root) gives B the target `⟨3/2, 2, 1, 2⟩`, computed from
B's **original layout** coordinates — while recomputing from B's current
interpolated state (as the claim asserts) would give `⟨7/4, 2, 1/2, 3/2⟩`;
the two differ, so targets are not recomputed from the interpolated state. -/
theorem C8_counterexample :
    ((clickPath (build T2) midStateT2 []).nodes.get? 2).map NodeSt.tgt
        = some ⟨3 / 2, 2, 1, 2⟩ ∧
      (midStateT2.nodes.get? 2).map (fun n => retargetG 0 2 0 n.cur)
        = some ⟨7 / 4, 2, 1 / 2, 3 / 2⟩ ∧
      (⟨3 / 2, 2, 1, 2⟩ : Geom) ≠ ⟨7 / 4, 2, 1 / 2, 3 / 2⟩ := by
  refine ⟨?_, ?_, ?_⟩
  · rw [midStateT2_eq]
    simp [clickPath, build_T2_eq, pathGet, LTree.info, clickNode, retarget_rootT2_bT2,
      retarget_aT2_rootT2]
  · rw [midStateT2_eq]
    simp [retargetG, clampQ]
    norm_num
  · intro h
    have := congrArg Geom.x0 h
    norm_num at this

/-- C8 as amended: a click during an animating transition retargets rather
than queues — every node's new `target` is recomputed from its **original
layout** geometry relative to the clicked node, the in-flight interpolated
`current` value is left in place, and the next interpolation runs from that
in-flight value toward the new target. -/
theorem C8_amended_retarget_from_layout (tr : LTree) (s : ZState) (q : List ℕ)
    (u : LTree) (hq : pathGet tr q = some u) :
    (clickPath tr s q).nodes
        = s.nodes.map (fun n => ⟨n.layout, n.cur, retarget u.info n.layout⟩) ∧
      ∀ r : ℚ, (advance r (clickPath tr s q)).nodes
        = s.nodes.map (fun n =>
            ⟨n.layout, lerpG n.cur (retarget u.info n.layout) r,
              retarget u.info n.layout⟩) := by
  constructor
  · simp [clickPath, hq, clickNode]
  · intro r
    simp [clickPath, hq, clickNode, advance, List.map_map, Function.comp_def]

/-- Witness for C8 as amended: clicking A on the freshly initialised `T2`
renderer and advancing halfway. -/
theorem C8_amended_retarget_from_layout_witness :
    (advance (1 / 2) (clickPath (build T2) (initState (build T2)) [0])).nodes
      = (initState (build T2)).nodes.map (fun n =>
          ⟨n.layout, lerpG n.cur (retarget (LTree.node aT2 []).info n.layout) (1 / 2),
            retarget (LTree.node aT2 []).info n.layout⟩) :=
  (C8_amended_retarget_from_layout (build T2) (initState (build T2)) [0]
    (LTree.node aT2 [])
    (by rw [build_T2_eq]; simp [pathGet, LTree.children])).2 (1 / 2)

/-! ## Zoom round trip (claim C2) -/

/-- Layout record of the root of `T3`. -/
def rT3 : LNode := ⟨"root", 1, 0, 0, 2, 0, 1⟩

/-- Layout record of `A` in `T3`. -/
def aT3 : LNode := ⟨"A", 1, 1, 0, 2, 1, 2⟩

/-- Layout record of `B` in `T3`. -/
def bT3 : LNode := ⟨"B", 1, 2, 0, 2, 2, 3⟩

/-- Layout record of `C` in `T3`. -/
def cT3 : LNode := ⟨"C", 1, 3, 0, 2, 3, 4⟩

theorem build_T3_eq' :
    build T3 = .node rT3 [.node aT3 [.node bT3 [.node cT3 []]]] := by
  rw [build_T3_eq]
  simp [rT3, aT3, bT3, cT3]

theorem retarget_aT3_rT3 : retarget aT3 rT3 = ⟨0, 2, 0, 0⟩ := by
  norm_num [retarget, retargetG, layoutGeom, clampQ, aT3, rT3]

theorem retarget_aT3_aT3 : retarget aT3 aT3 = ⟨0, 2, 0, 1⟩ := by
  norm_num [retarget, retargetG, layoutGeom, clampQ, aT3]

theorem retarget_aT3_bT3 : retarget aT3 bT3 = ⟨0, 2, 1, 2⟩ := by
  norm_num [retarget, retargetG, layoutGeom, clampQ, aT3, bT3]

theorem retarget_aT3_cT3 : retarget aT3 cT3 = ⟨0, 2, 2, 3⟩ := by
  norm_num [retarget, retargetG, layoutGeom, clampQ, aT3, cT3]

/-- The `T3` renderer state right after clicking arc A (path `[0]`). -/
def sA_T3 : ZState := clickPath (build T3) (initState (build T3)) [0]

theorem sA_T3_eq :
    sA_T3 = ⟨[0],
      [⟨rT3, layoutGeom rT3, ⟨0, 2, 0, 0⟩⟩,
       ⟨aT3, layoutGeom aT3, ⟨0, 2, 0, 1⟩⟩,
       ⟨bT3, layoutGeom bT3, ⟨0, 2, 1, 2⟩⟩,
       ⟨cT3, layoutGeom cT3, ⟨0, 2, 2, 3⟩⟩]⟩ := by
  rw [sA_T3, build_T3_eq']
  simp [clickPath, pathGet, LTree.children, LTree.info, initState, nodesOf,
    subtreesL, subtreesL.subtreesLF, clickNode, retarget_aT3_rT3, retarget_aT3_aT3,
    retarget_aT3_bT3, retarget_aT3_cT3]

theorem roundtrip_T3_eq :
    centerClick (build T3) (clickPath (build T3) (initState (build T3)) [0, 0])
      = ⟨[0],
        [⟨rT3, layoutGeom rT3, ⟨0, 2, 0, 0⟩⟩,
         ⟨aT3, layoutGeom aT3, ⟨0, 2, 0, 1⟩⟩,
         ⟨bT3, layoutGeom bT3, ⟨0, 2, 1, 2⟩⟩,
         ⟨cT3, layoutGeom cT3, ⟨0, 2, 2, 3⟩⟩]⟩ := by
  rw [build_T3_eq']
  simp [centerClick, clickPath, pathGet, LTree.children, LTree.info, initState,
    nodesOf, subtreesL, subtreesL.subtreesLF, clickNode, retarget_aT3_rT3,
    retarget_aT3_aT3, retarget_aT3_bT3, retarget_aT3_cT3]

/-- C2 counterexample: on `T3`, from the initial state (focus = root), B at
path `[0, 0]` is a focusable non-root node (it has a child and its arc is
visible); zooming into B and then zooming out via the center disc — whose
click target is B's parent A — leaves the focus at A (path `[0]`), **not**
at the pre-zoom focus (root, path `[]`), and the recomputed targets differ
from the pre-zoom targets. -/
theorem C2_counterexample :
    ((pathGet (build T3) [0, 0]).map (fun u => u.children.length) = some 1) ∧
      arcVisible ⟨0, 2, 2, 3⟩ = true ∧
      (centerClick (build T3)
          (clickPath (build T3) (initState (build T3)) [0, 0])).focus
        ≠ (initState (build T3)).focus ∧
      (centerClick (build T3)
            (clickPath (build T3) (initState (build T3)) [0, 0])).nodes.map NodeSt.tgt
        ≠ (initState (build T3)).nodes.map NodeSt.tgt := by
  have hinit : initState (build T3)
      = ⟨[], [⟨rT3, layoutGeom rT3, layoutGeom rT3⟩,
              ⟨aT3, layoutGeom aT3, layoutGeom aT3⟩,
              ⟨bT3, layoutGeom bT3, layoutGeom bT3⟩,
              ⟨cT3, layoutGeom cT3, layoutGeom cT3⟩]⟩ := by
    rw [build_T3_eq']
    simp [initState, nodesOf, subtreesL, subtreesL.subtreesLF, LTree.info]
  refine ⟨?_, by simp [arcVisible], ?_, ?_⟩
  · rw [build_T3_eq']
    simp [pathGet, LTree.children]
  · rw [roundtrip_T3_eq, hinit]
    simp
  · rw [roundtrip_T3_eq, hinit]
    simp only [List.map]
    intro h
    have h0 := congrArg (fun l => l.get? 0) h
    simp [layoutGeom, rT3] at h0

/-- C2 as amended: the zoom round trip restores the pre-zoom focus and
targets exactly **when the pre-zoom focus is P's parent** (the general claim
fails when P sits two or more levels below the focus, since zoom-out always
lands on P's parent).  If the state's focus is `q.dropLast` and its targets
were produced by focusing that node, clicking `q` and then the center disc
restores the focus path, every target, and every layout record, exactly. -/
theorem C2_amended_roundtrip (tr : LTree) (s : ZState) (q : List ℕ) (u f : LTree)
    (hq : pathGet tr q = some u) (hne : q ≠ [])
    (hf : s.focus = q.dropLast)
    (hfu : pathGet tr s.focus = some f)
    (htgt : ∀ n ∈ s.nodes, n.tgt = retarget f.info n.layout) :
    (centerClick tr (clickPath tr s q)).focus = s.focus ∧
      (centerClick tr (clickPath tr s q)).nodes.map NodeSt.tgt
        = s.nodes.map NodeSt.tgt ∧
      (centerClick tr (clickPath tr s q)).nodes.map NodeSt.layout
        = s.nodes.map NodeSt.layout := by
  have h1 : clickPath tr s q = clickNode u.info q s := by
    simp [clickPath, hq]
  have hfu' : pathGet tr q.dropLast = some f := by rw [← hf]; exact hfu
  have h2 : centerClick tr (clickPath tr s q)
      = clickNode f.info q.dropLast (clickNode u.info q s) := by
    rw [h1]
    simp [centerClick, clickPath, clickNode, hfu']
  rw [h2]
  refine ⟨hf.symm, ?_, ?_⟩
  · simp only [clickNode, List.map_map, Function.comp_def]
    exact List.map_congr_left fun n hn => (htgt n hn).symm
  · simp [clickNode, List.map_map, Function.comp_def]

/-- Witness for C2 as amended: on `T3`, focus A (B's parent), zoom into B at
path `[0, 0]`, zoom out via the center disc. -/
theorem C2_amended_roundtrip_witness :
    (centerClick (build T3) (clickPath (build T3) sA_T3 [0, 0])).focus = sA_T3.focus ∧
      (centerClick (build T3) (clickPath (build T3) sA_T3 [0, 0])).nodes.map NodeSt.tgt
        = sA_T3.nodes.map NodeSt.tgt ∧
      (centerClick (build T3) (clickPath (build T3) sA_T3 [0, 0])).nodes.map NodeSt.layout
        = sA_T3.nodes.map NodeSt.layout :=
  C2_amended_roundtrip (build T3) sA_T3 [0, 0]
    (.node bT3 [.node cT3 []]) (.node aT3 [.node bT3 [.node cT3 []]])
    (by rw [build_T3_eq']; simp [pathGet, LTree.children])
    (by simp)
    (by rw [sA_T3_eq]; rfl)
    (by rw [sA_T3_eq, build_T3_eq']; simp [pathGet, LTree.children])
    (by
      rw [sA_T3_eq]
      intro n hn
      simp only [LTree.info]
      fin_cases hn <;>
        simp [retarget_aT3_rT3, retarget_aT3_aT3, retarget_aT3_bT3, retarget_aT3_cT3])

/-! ## Sibling order: stable descending sort (claim C7) -/

theorem filter_orderedInsert_of_ne {x : WTree} {w : ℚ} (hx : x.value ≠ w) :
    ∀ l : List WTree,
      (List.orderedInsert rdesc x l).filter (fun c => c.value = w)
        = l.filter (fun c => c.value = w) := by
  intro l
  induction l with
  | nil => simp [List.orderedInsert, hx]
  | cons y ys ih =>
    by_cases hxy : rdesc x y
    · rw [List.orderedInsert_of_le rdesc ys hxy]
      simp [hx]
    · rw [List.orderedInsert, if_neg hxy, List.filter_cons, List.filter_cons, ih]

theorem filter_orderedInsert_of_eq {x : WTree} {w : ℚ} (hx : x.value = w) :
    ∀ l : List WTree,
      (List.orderedInsert rdesc x l).filter (fun c => c.value = w)
        = x :: l.filter (fun c => c.value = w) := by
  intro l
  induction l with
  | nil => simp [List.orderedInsert, hx]
  | cons y ys ih =>
    by_cases hxy : rdesc x y
    · rw [List.orderedInsert_of_le rdesc ys hxy]
      simp [hx]
    · have hy : y.value ≠ w := by
        intro hyw
        exact hxy (le_of_eq (hx ▸ hyw : y.value = x.value))
      rw [List.orderedInsert, if_neg hxy, List.filter_cons, ih]
      simp [hy]

/-- Stability of the children sort: the sorted list restricted to any single
weight `w` is exactly the original list restricted to `w`, in order. -/
theorem filter_insertionSort (w : ℚ) :
    ∀ l : List WTree,
      (List.insertionSort rdesc l).filter (fun c => c.value = w)
        = l.filter (fun c => c.value = w) := by
  intro l
  induction l with
  | nil => simp
  | cons x xs ih =>
    rw [List.insertionSort]
    by_cases hx : x.value = w
    · rw [filter_orderedInsert_of_eq hx, ih, List.filter_cons]
      simp [hx]
    · rw [filter_orderedInsert_of_ne hx, ih, List.filter_cons]
      simp [hx]

theorem sortTree_children (nm : String) (v : ℚ) (cs : List WTree) :
    (sortTree (.node nm v cs)).children
      = List.insertionSort rdesc (cs.map sortTree) := by
  simp [sortTree, sortForest_eq_map, WTree.children]

theorem mem_sortTree_subtrees {t s : WTree} (hs : s ∈ subtreesW (sortTree t)) :
    ∃ u ∈ subtreesW t, s = sortTree u := by
  induction t using WTree.strongIndW with
  | h nm v cs ih =>
    rw [sortTree] at hs
    rcases mem_subtreesW.mp hs with h | ⟨c', hc', hsc⟩
    · exact ⟨.node nm v cs, self_mem_subtreesW _, by rw [h, sortTree]⟩
    · have hc'' : c' ∈ (sortTree.sortForest cs) :=
        (List.perm_insertionSort rdesc _).mem_iff.mp hc'
      rw [sortForest_eq_map] at hc''
      obtain ⟨c, hc, rfl⟩ := List.mem_map.mp hc''
      obtain ⟨u, hu, rfl⟩ := ih c hc hsc
      exact ⟨u, mem_subtreesW.mpr (Or.inr ⟨c, hc, hu⟩), rfl⟩

/-- C7: after construction every node of the sorted hierarchy is the image of
a node of the summed hierarchy, and at every such node the children are in
descending order of resolved weight, with equal-weight siblings kept in their
original input order (the restriction of the sorted children to any single
weight equals the restriction of the un-sorted children). -/
theorem C7_sibling_order (t : Inp) :
    (∀ s ∈ subtreesW (sortTree (sumTree t)), ∃ u ∈ subtreesW (sumTree t), s = sortTree u)
    ∧ (∀ u ∈ subtreesW (sumTree t),
        List.Pairwise (fun a b : WTree => b.value ≤ a.value) (sortTree u).children
        ∧ ∀ w : ℚ, (sortTree u).children.filter (fun c => c.value = w)
            = (u.children.map sortTree).filter (fun c => c.value = w)) := by
  refine ⟨fun s hs => mem_sortTree_subtrees hs, fun u _ => ?_⟩
  cases u with
  | node nm v cs =>
    rw [sortTree_children, WTree.children]
    constructor
    · exact List.sorted_insertionSort rdesc (cs.map sortTree)
    · intro w
      exact filter_insertionSort w (cs.map sortTree)

/-- A document with an equal-weight tie: X and Z both weigh 2, Y weighs 1. -/
def Ttie : Inp :=
  .node "root" none [.node "X" (some 2) [], .node "Y" (some 1) [], .node "Z" (some 2) []]

/-- Witness for C7 on `Ttie`: the sorted children are descending, and the
weight-2 block keeps X before Z (original order). -/
theorem C7_sibling_order_witness :
    List.Pairwise (fun a b : WTree => b.value ≤ a.value)
        (sortTree (sumTree Ttie)).children
    ∧ (sortTree (sumTree Ttie)).children.filter (fun c => c.value = 2)
        = ((sumTree Ttie).children.map sortTree).filter (fun c => c.value = 2) := by
  have h := (C7_sibling_order Ttie).2 (sumTree Ttie) (self_mem_subtreesW _)
  exact ⟨h.1, h.2 2⟩

/-! ## Angular partition (claim C5) -/

/-- Invariant a weighted tree satisfies after valid-document weight
resolution: non-negative weights, internal weight = sum of children's. -/
def WGood : WTree → Prop
  | .node _ v cs =>
    0 ≤ v ∧ (cs ≠ [] → v = (cs.map WTree.value).sum) ∧ WGoodF cs
where
  /-- `WGood` on every tree of a forest. -/
  WGoodF : List WTree → Prop
  | [] => True
  | c :: cs => WGood c ∧ WGoodF cs

theorem WGoodF_iff {cs : List WTree} :
    WGood.WGoodF cs ↔ ∀ c ∈ cs, WGood c := by
  induction cs with
  | nil => simp [WGood.WGoodF]
  | cons c cs ih => simp [WGood.WGoodF, ih]

theorem WGood_node {nm : String} {v : ℚ} {cs : List WTree} :
    WGood (.node nm v cs)
      ↔ 0 ≤ v ∧ (cs ≠ [] → v = (cs.map WTree.value).sum) ∧ ∀ c ∈ cs, WGood c := by
  simp [WGood, WGoodF_iff]

theorem WGood.nonneg {t : WTree} (h : WGood t) : 0 ≤ t.value := by
  cases t with
  | node nm v cs => exact (WGood_node.mp h).1

theorem WGood.sum_eq {t : WTree} (h : WGood t) (hc : t.children ≠ []) :
    t.value = (t.children.map WTree.value).sum := by
  cases t with
  | node nm v cs => exact (WGood_node.mp h).2.1 hc

theorem WGood.child {t c : WTree} (h : WGood t) (hc : c ∈ t.children) : WGood c := by
  cases t with
  | node nm v cs => exact (WGood_node.mp h).2.2 c hc

theorem ValidInp_node {nm : String} {v : Option ℚ} {cs : List Inp} :
    ValidInp (.node nm v cs)
      ↔ (cs = [] → 0 ≤ v.getD 0) ∧ (cs ≠ [] → v = none) ∧ ∀ c ∈ cs, ValidInp c := by
  simp [ValidInp, validForest_iff]

/-- Weight resolution of a valid document yields the `WGood` invariant. -/
theorem sumTree_WGood {t : Inp} (hv : ValidInp t) : WGood (sumTree t) := by
  induction t using Inp.strongIndI with
  | h nm v cs ih =>
    obtain ⟨hleaf, hint, hkids⟩ := ValidInp_node.mp hv
    have hkid_good : ∀ c ∈ cs, WGood (sumTree c) := fun c hc => ih c hc (hkids c hc)
    have hsum_nonneg : 0 ≤ ((cs.map sumTree).map WTree.value).sum := by
      apply List.sum_nonneg
      intro q hq
      obtain ⟨c', hc', rfl⟩ := List.mem_map.mp hq
      obtain ⟨c, hc, rfl⟩ := List.mem_map.mp hc'
      exact (hkid_good c hc).nonneg
    have hown : 0 ≤ v.getD 0 := by
      by_cases hcs : cs = []
      · exact hleaf hcs
      · rw [hint hcs]
        norm_num
    have he : sumTree (.node nm v cs)
        = .node nm (v.getD 0 + ((cs.map sumTree).map WTree.value).sum) (cs.map sumTree) := by
      simp [sumTree, sumForest_eq_map]
    rw [he, WGood_node]
    refine ⟨by linarith, ?_, ?_⟩
    · intro hne
      have hcs : cs ≠ [] := by
        intro h; rw [h] at hne; simp at hne
      rw [hint hcs]
      simp
    · intro c' hc'
      obtain ⟨c, hc, rfl⟩ := List.mem_map.mp hc'
      exact hkid_good c hc

/-- Stable sorting of children preserves the `WGood` invariant. -/
theorem sortTree_WGood {t : WTree} (h : WGood t) : WGood (sortTree t) := by
  induction t using WTree.strongIndW with
  | h nm v cs ih =>
    obtain ⟨hnn, hsum, hkids⟩ := WGood_node.mp h
    have hperm : (List.insertionSort rdesc (cs.map sortTree)).Perm (cs.map sortTree) :=
      List.perm_insertionSort rdesc (cs.map sortTree)
    have he : sortTree (.node nm v cs)
        = .node nm v (List.insertionSort rdesc (cs.map sortTree)) := by
      simp [sortTree, sortForest_eq_map]
    rw [he, WGood_node]
    refine ⟨hnn, ?_, ?_⟩
    · intro hne
      have hcs : cs ≠ [] := by
        intro hnil
        rw [hnil] at hne
        simp at hne
      have hv : ((cs.map sortTree).map WTree.value) = cs.map WTree.value := by
        rw [List.map_map]
        exact List.map_congr_left fun c _ => sortTree_value c
      calc v = (cs.map WTree.value).sum := hsum hcs
        _ = ((cs.map sortTree).map WTree.value).sum := by rw [hv]
        _ = ((List.insertionSort rdesc (cs.map sortTree)).map WTree.value).sum :=
            (List.Perm.sum_eq (hperm.map WTree.value)).symm
    · intro c' hc'
      have hc'' : c' ∈ cs.map sortTree := hperm.mem_iff.mp hc'
      obtain ⟨c, hc, rfl⟩ := List.mem_map.mp hc''
      exact ih c hc (hkids c hc)

/-- The spans of the list run contiguously from angle `a` to angle `b`: each
span starts where the previous one ended, the first starts at `a`, the last
ends at `b` (for the empty list, `a = b`). -/
def chainSpans (a : ℚ) : List LTree → ℚ → Prop
  | [], b => a = b
  | c :: cs, b => c.info.x0 = a ∧ chainSpans c.info.x1 cs b

theorem chainSpans_bounds :
    ∀ {l : List LTree} {a b : ℚ}, chainSpans a l b →
      (∀ c ∈ l, c.info.x0 ≤ c.info.x1) →
      a ≤ b ∧ ∀ c ∈ l, a ≤ c.info.x0 ∧ c.info.x1 ≤ b := by
  intro l
  induction l with
  | nil =>
    intro a b hch _
    exact ⟨le_of_eq hch, by simp⟩
  | cons c cs ih =>
    intro a b hch hw
    obtain ⟨hc0, hrest⟩ := hch
    have hwc : c.info.x0 ≤ c.info.x1 := hw c (List.mem_cons_self ..)
    obtain ⟨hab, hall⟩ := ih hrest (fun c' hc' => hw c' (List.mem_cons_of_mem _ hc'))
    refine ⟨by linarith, ?_⟩
    intro c' hc'
    rcases List.mem_cons.mp hc' with rfl | hc'
    · exact ⟨le_of_eq hc0.symm, by linarith⟩
    · obtain ⟨h1, h2⟩ := hall c' hc'
      exact ⟨by linarith, h2⟩

theorem chainSpans_pairwise :
    ∀ {l : List LTree} {a b : ℚ}, chainSpans a l b →
      (∀ c ∈ l, c.info.x0 ≤ c.info.x1) →
      List.Pairwise (fun c c' : LTree => c.info.x1 ≤ c'.info.x0) l := by
  intro l
  induction l with
  | nil => intro a b _ _; exact List.Pairwise.nil
  | cons c cs ih =>
    intro a b hch hw
    obtain ⟨hc0, hrest⟩ := hch
    refine List.Pairwise.cons ?_ (ih hrest (fun c' hc' => hw c' (List.mem_cons_of_mem _ hc')))
    intro c' hc'
    exact ((chainSpans_bounds hrest
      (fun d hd => hw d (List.mem_cons_of_mem _ hd))).2 c' hc').1

/-- The angular-partition property at one layout node: its children's spans
are contiguous from the node's start angle to its end angle, each child's
span is a sub-interval of the parent's, children do not overlap, and each
child's width is proportional to its weight over the parent's weight
(stated cross-multiplied so a weight-0 parent is covered). -/
def PartProp (u : LTree) : Prop :=
  u.children ≠ [] →
    chainSpans u.info.x0 u.children u.info.x1
    ∧ (∀ c ∈ u.children, u.info.x0 ≤ c.info.x0 ∧ c.info.x0 ≤ c.info.x1 ∧ c.info.x1 ≤ u.info.x1)
    ∧ List.Pairwise (fun a b : LTree => a.info.x1 ≤ b.info.x0) u.children
    ∧ ∀ c ∈ u.children, (c.info.x1 - c.info.x0) * u.info.value
        = c.info.value * (u.info.x1 - u.info.x0)

theorem partAux_info_value (w : WTree) (x0 x1 : ℚ) (d : ℕ) :
    (partAux w x0 x1 d).info.value = w.value := by
  cases w with
  | node nm v cs =>
    by_cases h : x1 < x0 <;> simp [partAux, h, LTree.info, WTree.value]

theorem LTree.info_node (i : LNode) (cs : List LTree) : (LTree.node i cs).info = i := rfl

theorem LTree.children_node (i : LNode) (cs : List LTree) :
    (LTree.node i cs).children = cs := rfl

theorem diceAux_good (k : ℚ) (hk : 0 ≤ k) (d : ℕ) :
    ∀ (cs : List WTree), (∀ c ∈ cs, WGood c) →
      (∀ c ∈ cs, ∀ (x0 x1 : ℚ) (d' : ℕ), WGood c → x0 ≤ x1 → (c.value = 0 → x0 = x1) →
        (partAux c x0 x1 d').info.x0 = x0 ∧ (partAux c x0 x1 d').info.x1 = x1 ∧
        ∀ u ∈ subtreesL (partAux c x0 x1 d'), PartProp u) →
      ∀ s : ℚ,
        chainSpans s (partAux.diceAux cs s k d) (s + ((cs.map WTree.value).sum) * k)
        ∧ (∀ lt ∈ partAux.diceAux cs s k d,
            lt.info.x0 ≤ lt.info.x1 ∧ lt.info.x1 - lt.info.x0 = lt.info.value * k)
        ∧ (∀ lt ∈ partAux.diceAux cs s k d, ∀ u ∈ subtreesL lt, PartProp u) := by
  intro cs
  induction cs with
  | nil =>
    intro _ _ s
    refine ⟨?_, by simp [partAux.diceAux], by simp [partAux.diceAux]⟩
    simp [partAux.diceAux, chainSpans]
  | cons c cs ih =>
    intro hg hIH s
    have hgc : WGood c := hg c (List.mem_cons_self ..)
    have hnn : 0 ≤ c.value := hgc.nonneg
    have hwidth : 0 ≤ c.value * k := mul_nonneg hnn hk
    have h1 : s ≤ s + c.value * k := by linarith
    have h0 : c.value = 0 → s = s + c.value * k := by
      intro h
      rw [h]
      ring
    obtain ⟨hx0, hx1, hsub⟩ :=
      hIH c (List.mem_cons_self ..) s (s + c.value * k) d hgc h1 h0
    have hrest := ih (fun c' hc' => hg c' (List.mem_cons_of_mem _ hc'))
      (fun c' hc' => hIH c' (List.mem_cons_of_mem _ hc')) (s + c.value * k)
    rw [partAux.diceAux]
    refine ⟨?_, ?_, ?_⟩
    · simp only [chainSpans]
      refine ⟨hx0, ?_⟩
      rw [hx1]
      have he : s + ((List.map WTree.value (c :: cs)).sum) * k
          = (s + c.value * k) + ((List.map WTree.value cs).sum) * k := by
        simp only [List.map_cons, List.sum_cons]
        ring
      rw [he]
      exact hrest.1
    · intro lt hlt
      rcases List.mem_cons.mp hlt with rfl | hlt
      · refine ⟨?_, ?_⟩
        · rw [hx0, hx1]
          exact h1
        · rw [hx0, hx1, partAux_info_value]
          ring
      · exact hrest.2.1 lt hlt
    · intro lt hlt
      rcases List.mem_cons.mp hlt with rfl | hlt
      · exact hsub
      · exact hrest.2.2 lt hlt

/-- The partition invariant: laying out a `WGood` tree over a well-oriented
span (degenerate exactly when the weight is 0) records that span on the root
node and establishes `PartProp` on every node of the result. -/
theorem partAux_good (w : WTree) :
    ∀ (x0 x1 : ℚ) (d : ℕ), WGood w → x0 ≤ x1 → (w.value = 0 → x0 = x1) →
      (partAux w x0 x1 d).info.x0 = x0 ∧ (partAux w x0 x1 d).info.x1 = x1 ∧
      ∀ u ∈ subtreesL (partAux w x0 x1 d), PartProp u := by
  induction w using WTree.strongIndW with
  | h nm v cs ih =>
    intro x0 x1 d hg hle h0
    obtain ⟨hnn, hsum, hkids⟩ := WGood_node.mp hg
    rw [WTree.value] at h0
    have hnlt : ¬ x1 < x0 := not_lt.mpr hle
    have hk : 0 ≤ (if v = 0 then 0 else (x1 - x0) / v) := by
      by_cases hv : v = 0
      · simp [hv]
      · rw [if_neg hv]
        exact div_nonneg (by linarith) hnn
    have he : partAux (.node nm v cs) x0 x1 d
        = .node ⟨nm, v, d, x0, x1, (d : ℚ), (d : ℚ) + 1⟩
            (partAux.diceAux cs x0 (if v = 0 then 0 else (x1 - x0) / v) (d + 1)) := by
      simp [partAux, hnlt]
    obtain ⟨hch, hwidths, hsubs⟩ :=
      diceAux_good (if v = 0 then 0 else (x1 - x0) / v) hk (d + 1) cs
        (fun c hc => hkids c hc) (fun c hc => ih c hc) x0
    rw [he]
    refine ⟨by simp [LTree.info], by simp [LTree.info], ?_⟩
    intro u hu
    rcases mem_subtreesL.mp hu with rfl | ⟨c', hc', hcu⟩
    · intro hne
      simp only [LTree.children_node] at hne
      simp only [LTree.children_node, LTree.info_node]
      have hwd : ∀ c ∈ partAux.diceAux cs x0 (if v = 0 then 0 else (x1 - x0) / v) (d + 1),
          c.info.x0 ≤ c.info.x1 := fun c hc => (hwidths c hc).1
      have hcs_ne : cs ≠ [] := by
        intro hnil
        rw [hnil] at hne
        simp [partAux.diceAux] at hne
      have hsv : (cs.map WTree.value).sum = v := (hsum hcs_ne).symm
      have hend : x0 + ((cs.map WTree.value).sum) * (if v = 0 then 0 else (x1 - x0) / v)
          = x1 := by
        rw [hsv]
        by_cases hv : v = 0
        · rw [if_pos hv, hv, ← h0 hv]
          ring
        · rw [if_neg hv]
          field_simp
      have hch' : chainSpans x0
          (partAux.diceAux cs x0 (if v = 0 then 0 else (x1 - x0) / v) (d + 1)) x1 := by
        have h := hch
        rw [hend] at h
        exact h
      have hbounds := chainSpans_bounds hch' hwd
      refine ⟨hch', ?_, chainSpans_pairwise hch' hwd, ?_⟩
      · intro c hc
        obtain ⟨hb1, hb2⟩ := hbounds.2 c hc
        exact ⟨hb1, hwd c hc, hb2⟩
      · intro c hc
        have hw := (hwidths c hc).2
        by_cases hv : v = 0
        · have hx : x0 = x1 := h0 hv
          have hk0 : (if v = 0 then (0 : ℚ) else (x1 - x0) / v) = 0 := if_pos hv
          rw [hw, hk0, hv, hx]
          ring
        · have hvk : v * ((x1 - x0) / v) = x1 - x0 := by field_simp
          rw [hw, if_neg hv]
          calc c.info.value * ((x1 - x0) / v) * v
              = c.info.value * (v * ((x1 - x0) / v)) := by ring
            _ = c.info.value * (x1 - x0) := by rw [hvk]
    · exact hsubs c' hc' u hcu

/-- The resolved weight of the whole document. -/
def rootWeight (t : Inp) : ℚ := (sumTree t).value

/-- C5: for every valid input tree with positive total weight and every node
with children in the computed layout, the children's angular spans run
contiguously from the parent's start angle to its end angle (so they are
non-overlapping sub-intervals of the parent's span whose total equals the
parent's span), and each child's width is proportional to its resolved
weight over the parent's weight. -/
theorem C5_angular_partition (t : Inp) (hv : ValidInp t) (hpos : 0 < rootWeight t) :
    ∀ u ∈ subtreesL (build t), u.children ≠ [] →
      chainSpans u.info.x0 u.children u.info.x1
      ∧ (∀ c ∈ u.children,
          u.info.x0 ≤ c.info.x0 ∧ c.info.x0 ≤ c.info.x1 ∧ c.info.x1 ≤ u.info.x1)
      ∧ List.Pairwise (fun a b : LTree => a.info.x1 ≤ b.info.x0) u.children
      ∧ ∀ c ∈ u.children, (c.info.x1 - c.info.x0) * u.info.value
          = c.info.value * (u.info.x1 - u.info.x0) := by
  have hg : WGood (sortTree (sumTree t)) := sortTree_WGood (sumTree_WGood hv)
  have h0 : (sortTree (sumTree t)).value = 0 → (0 : ℚ) = 2 := by
    intro h
    rw [sortTree_value] at h
    rw [rootWeight] at hpos
    exact absurd h (by linarith)
  intro u hu
  rw [build] at hu
  exact (partAux_good (sortTree (sumTree t)) 0 2 0 hg (by norm_num) h0).2.2 u hu

/-- Witness for C5 on `T2`: the root's children A and B tile `[0, 2π]`. -/
theorem C5_angular_partition_witness :
    chainSpans (build T2).info.x0 (build T2).children (build T2).info.x1
    ∧ (∀ c ∈ (build T2).children,
        (build T2).info.x0 ≤ c.info.x0 ∧ c.info.x0 ≤ c.info.x1
          ∧ c.info.x1 ≤ (build T2).info.x1)
    ∧ List.Pairwise (fun a b : LTree => a.info.x1 ≤ b.info.x0) (build T2).children
    ∧ ∀ c ∈ (build T2).children,
        (c.info.x1 - c.info.x0) * (build T2).info.value
          = c.info.value * ((build T2).info.x1 - (build T2).info.x0) :=
  C5_angular_partition T2
    (by simp [T2, ValidInp, ValidInp.ValidForest])
    (by
      have : rootWeight T2 = 4 := by
        rw [rootWeight, T2, sumTree_value]
        simp [sumTree_value]
        norm_num
      rw [this]
      norm_num)
    (build T2) (self_mem_subtreesL _)
    (by rw [build_T2_eq]; simp [LTree.children])
